import Mathlib

/-!
Verification development for the VidNexus summarization pipeline (src/YSA.py).

The core of the program is the chunking and hierarchical map-reduce
summarization pipeline: `chunk_text` (the Segmenter, lines 70-83) and
`summarize_using_agent` (Leaf Summarizer + Reducer, lines 99-129), driven by
the Streamlit block (lines 240-254) which checks the transcript, chunks it
with `max_words = 150`, and runs the summarizer.

Strings are embedded as `List Char`.  The external summarization model is
embedded as a function from the global invocation index and the prompt to an
optional result: `none` models the call raising an exception, `some` a
returned value, which is either a plain string (`ModelOut.str`) or a richer
result object whose `str()` rendering is recorded (`ModelOut.obj`).  Model
invocations are counted by threading the next invocation index through the
computation; the `while` loop of the Reducer is given explicit fuel, with a
distinguished `fuelOut` outcome, since the source loop need not terminate.
-/

/-- Strings of the Python program, embedded as lists of characters. -/
abbrev Str := List Char

/-- Terminal sentence punctuation of the splitting regex `(?<=[.!?]) +`. -/
def isTerm (c : Char) : Bool := c == '.' || c == '!' || c == '?'

/-- The lookbehind test of the regex: `acc` holds the current sentence in
reverse, so its head is the character immediately before the candidate
space. -/
def termBefore : List Char → Bool
  | [] => false
  | p :: _ => isTerm p

/-- Embedding of `re.split` with pattern `(?<=[.!?]) +` on `text` (line 71).  The scan is in
one of two modes: `true` while consuming the (greedy, maximal) run of spaces
of a separator match, `false` while accumulating sentence characters.  A
separator match begins at a space whose immediately preceding character is
terminal punctuation; the zero-width lookbehind keeps the punctuation with
the preceding sentence and the spaces are consumed. -/
def splitSentencesAux : Bool → List Char → List Char → List (List Char)
  | _, acc, [] => [acc.reverse]
  | true, acc, c :: rest =>
    if c = ' ' then splitSentencesAux true acc rest
    else splitSentencesAux false (c :: acc) rest
  | false, acc, c :: rest =>
    if c = ' ' ∧ termBefore acc = true then
      acc.reverse :: splitSentencesAux true [] rest
    else splitSentencesAux false (c :: acc) rest

/-- The `sentences` list of line 71: `re.split` with pattern `(?<=[.!?]) +`. -/
def splitSentences (text : Str) : List Str := splitSentencesAux false [] text

/-- Helper for Python `str.split()`: `acc` holds the current word in
reverse; whitespace runs are separators and empty words are dropped. -/
def wordsAux : List Char → List Char → List (List Char)
  | acc, [] => if acc.isEmpty then [] else [acc.reverse]
  | acc, c :: rest =>
    if c.isWhitespace then
      if acc.isEmpty then wordsAux [] rest else acc.reverse :: wordsAux [] rest
    else wordsAux (c :: acc) rest

/-- Embedding of Python `s.split()` (splitting on whitespace runs, dropping
empty pieces), as used in `len(s.split())` on line 74. -/
def pyWords (s : Str) : List Str := wordsAux [] s

/-- `len(s.split())` (line 74): the word count of a string. -/
def wordCount (s : Str) : Nat := (pyWords s).length

/-- Embedding of `" ".join(cur)` (lines 76 and 82). -/
def joinSpace : List Str → Str
  | [] => []
  | [s] => s
  | s :: rest => s ++ ' ' :: joinSpace rest

/-- The loop of `chunk_text` (lines 72-82): state `chunks`, `cur`, `cur_len`
exactly as in the source; a sentence is appended to the current chunk unless
adding it would push the running word count past `max_words` while the
current chunk is nonempty, in which case the current chunk is emitted and a
new one is started with that sentence; a nonempty final chunk is emitted
after the loop. -/
def chunkLoop (max_words : Nat) : List Str → List Str → List Str → Nat → List Str
  | [], chunks, cur, _ =>
    if cur ≠ [] then chunks ++ [joinSpace cur] else chunks
  | s :: rest, chunks, cur, cur_len =>
    if cur_len + wordCount s > max_words ∧ cur ≠ [] then
      chunkLoop max_words rest (chunks ++ [joinSpace cur]) [s] (wordCount s)
    else
      chunkLoop max_words rest chunks (cur ++ [s]) (cur_len + wordCount s)

/-- Embedding of `chunk_text` (lines 70-83). -/
def chunk_text (text : Str) (max_words : Nat) : List Str :=
  chunkLoop max_words (splitSentences text) [] [] 0

/-- Variant of `chunkLoop` that emits the list of sentences of each chunk
instead of their space-join; used to state which sentences a chunk consists
of.  Identical control flow to `chunkLoop`. -/
def chunkLoopG (max_words : Nat) : List Str → List (List Str) → List Str → Nat → List (List Str)
  | [], chunks, cur, _ =>
    if cur ≠ [] then chunks ++ [cur] else chunks
  | s :: rest, chunks, cur, cur_len =>
    if cur_len + wordCount s > max_words ∧ cur ≠ [] then
      chunkLoopG max_words rest (chunks ++ [cur]) [s] (wordCount s)
    else
      chunkLoopG max_words rest chunks (cur ++ [s]) (cur_len + wordCount s)

/-- The chunks of `chunk_text`, each given as its list of sentences. -/
def chunk_textG (text : Str) (max_words : Nat) : List (List Str) :=
  chunkLoopG max_words (splitSentences text) [] [] 0

/-- Embedding of Python `str.strip()`, leading side: drop leading
whitespace. -/
def trimLeft : List Char → List Char
  | [] => []
  | c :: rest => if c.isWhitespace then trimLeft rest else c :: rest

/-- Embedding of Python `str.strip()`: drop leading and trailing
whitespace. -/
def trim (s : Str) : Str := ((trimLeft ((trimLeft s).reverse)).reverse)

/-- A value returned by `youtube_agent.run`: either a plain string, or a
richer result object, recorded by what Python `str()` renders it to. -/
inductive ModelOut where
  | str (s : Str)
  | obj (rendered : Str)
deriving DecidableEq, Repr

/-- Embedding of `out.strip() if isinstance(out, str) else str(out)`
(lines 111 and 125): a plain string is stripped, any other result is
rendered with `str()` as is. -/
def capture : ModelOut → Str
  | .str s => trim s
  | .obj rendered => rendered

/-- The external summarization model: from the global invocation index and
the prompt to `none` (the call raises) or `some` returned value.  All calls
go through the single process-wide `youtube_agent` (line 86), so one index
sequence numbers every invocation of a run. -/
abbrev Model := Nat → Str → Option ModelOut

/-- The fixed text of the leaf prompt (lines 106-108), up to the chunk. -/
def leafPromptText : String :=
  "From the following transcript chunk, write a detailed chronological description covering all events, actions, and statements exactly as they appear, without skipping any details:\n\n"

/-- The leaf prompt of lines 106-108: fixed instructions followed by the
chunk. -/
def leafPrompt (chunk : Str) : Str := leafPromptText.data ++ chunk

/-- Embedding of Python `sep.join(batch)`. -/
def joinWith (sep : Str) : List Str → Str
  | [] => []
  | [s] => s
  | s :: rest => s ++ sep ++ joinWith sep rest

/-- The fixed text of the merge prompt (lines 119-122), up to the batch. -/
def mergePromptText : String :=
  "Combine the following detailed summaries into one chronological description, preserving all events and facts without removing any important points:\n\n"

/-- The merge prompt of lines 119-123: fixed instructions followed by the
batch joined with blank lines. -/
def mergePrompt (batch : List Str) : Str :=
  mergePromptText.data ++ joinWith ['\n', '\n'] batch

/-- A model invocation raised an exception; the index is the 0-based global
invocation number at which it raised, i.e. the number of successful
invocations made before it.  `leafFail` arises in the Step 1 loop
(lines 105-112), `mergeFail` in the Step 2 loop (lines 115-127); a
`leafFail` therefore means that no merge call was ever attempted. -/
inductive SummErr where
  | leafFail (idx : Nat)
  | mergeFail (idx : Nat)
deriving DecidableEq, Repr

/-- Step 1 of `summarize_using_agent` (lines 105-112): one model call per
chunk, in order, capturing each result; an exception aborts the loop and
propagates.  `k` is the next global invocation index; on success the
summaries are returned together with the updated index. -/
def leafLoop (model : Model) : List Str → Nat → Except SummErr (List Str × Nat)
  | [], k => .ok ([], k)
  | chunk :: rest, k =>
    match model k (leafPrompt chunk) with
    | none => .error (.leafFail k)
    | some out =>
      match leafLoop model rest (k + 1) with
      | .error e => .error e
      | .ok (ss, k2) => .ok (capture out :: ss, k2)

/-- The batches one merge pass processes: `summaries[i:i+batch_size]` for
`i in range(0, len(summaries), batch_size)` (lines 117-118).  For
`1 ≤ bs`, `s :: rest.take (bs - 1)` is `(s :: rest).take bs`. -/
def passGroups (bs : Nat) : List Str → List (List Str)
  | [] => []
  | s :: rest => (s :: rest.take (bs - 1)) :: passGroups bs (rest.drop (bs - 1))
termination_by l => l.length
decreasing_by simp; omega

/-- The body of one merge pass (lines 116-126): one model call per batch, in
order, capturing each merged result; an exception aborts and propagates. -/
def mergePassGo (model : Model) (bs : Nat) : List Str → Nat → Except SummErr (List Str × Nat)
  | [], k => .ok ([], k)
  | s :: rest, k =>
    match model k (mergePrompt (s :: rest.take (bs - 1))) with
    | none => .error (.mergeFail k)
    | some out =>
      match mergePassGo model bs (rest.drop (bs - 1)) (k + 1) with
      | .error e => .error e
      | .ok (ss, k2) => .ok (capture out :: ss, k2)
termination_by l _ => l.length
decreasing_by simp; omega

/-- Result of the Step 2 `while` loop: the loop ran out of fuel while more
than one summary remained (`fuelOut`, recording the invocation count when
fuel ran out), a model call raised (`fail`), or the loop exited with at most
one summary left (`ok`, with the final invocation count). -/
inductive MergeRes where
  | fuelOut (calls : Nat)
  | fail (e : SummErr)
  | ok (summaries : List Str) (calls : Nat)
deriving DecidableEq, Repr

/-- The Step 2 `while len(summaries) > 1` loop (lines 115-127), with
explicit fuel bounding the number of passes, since the source loop need not
terminate.  `∀ fuel, mergeWhile … fuel ss k = .fuelOut _` states that the
source loop runs forever on `ss`. -/
def mergeWhile (model : Model) (bs : Nat) : Nat → List Str → Nat → MergeRes
  | fuel, summaries, k =>
    if summaries.length > 1 then
      match fuel with
      | 0 => .fuelOut k
      | f + 1 =>
        match mergePassGo model bs summaries k with
        | .error e => .fail e
        | .ok (merged, k2) => mergeWhile model bs f merged k2
    else .ok summaries k

/-- `batch_size = 1  # smaller batches to prevent token overflow`
(line 101). -/
def batch_size : Nat := 1

/-- Outcome of `summarize_using_agent`: as `MergeRes`, but `ok` carries the
single returned string `summaries[0] if summaries else ""` (line 129). -/
inductive SummOutcome where
  | fuelOut (calls : Nat)
  | fail (e : SummErr)
  | ok (summary : Str) (calls : Nat)
deriving DecidableEq, Repr

/-- Embedding of `summarize_using_agent` (lines 99-129): the leaf loop over
the chunks, then the merge passes with the hardcoded `batch_size = 1`, then
extraction of the single remaining summary (the empty string if the chunk
list was empty). -/
def summarize_using_agent (model : Model) (fuel : Nat) (chunks : List Str) : SummOutcome :=
  match leafLoop model chunks 0 with
  | .error e => .fail e
  | .ok (summaries, k) =>
    match mergeWhile model batch_size fuel summaries k with
    | .fuelOut k2 => .fuelOut k2
    | .fail e => .fail e
    | .ok ss k2 => .ok (ss.headD []) k2

/-- Outcome of the orchestrating Streamlit block: `emptyContent` is the
`if not transcript: st.error(...); st.stop()` branch (lines 241-243), with
the number of model invocations it made recorded (always zero); the other
constructors relay the outcome of `summarize_using_agent`. -/
inductive RunOutcome where
  | emptyContent (calls : Nat)
  | fuelOut (calls : Nat)
  | fail (e : SummErr)
  | done (summary : Str) (calls : Nat)
deriving DecidableEq, Repr

/-- Embedding of the pipeline orchestration (lines 240-250): stop with an
error if the transcript is falsy, else chunk it with `max_words = 150`
(line 246) and summarize the chunks. -/
def pipeline_run (model : Model) (fuel : Nat) (transcript : Str) : RunOutcome :=
  if transcript = [] then .emptyContent 0
  else
    match summarize_using_agent model fuel (chunk_text transcript 150) with
    | .fuelOut k => .fuelOut k
    | .fail e => .fail e
    | .ok s k => .done s k

/-- A stub model that always succeeds and returns the empty string. -/
def constModel : Model := fun _ _ => some (.str [])

/-- A stub model that raises on its second invocation (global index 1) and
succeeds otherwise, as in end-to-end scenario C of the spec. -/
def failsSecond : Model := fun k _ => if k = 1 then none else some (.str [])

/-! ### Helper lemmas -/

/-- A character cannot be both whitespace and terminal punctuation. -/
theorem isTerm_eq_false_of_isWhitespace {c : Char} (h : c.isWhitespace = true) :
    isTerm c = false := by
  simp [Char.isWhitespace] at h
  rcases h with ((h | h) | h) | h <;> subst h <;> decide

/-- On all-whitespace input the sentence splitter never splits: the single
piece is the accumulator followed by the rest of the input. -/
theorem splitSentencesAux_ws :
    ∀ (l acc : List Char), (∀ c ∈ l, c.isWhitespace = true) →
      (∀ c ∈ acc, c.isWhitespace = true) →
      splitSentencesAux false acc l = [acc.reverse ++ l] := by
  intro l
  induction l with
  | nil => intro acc _ _; simp [splitSentencesAux]
  | cons c rest ih =>
    intro acc hl hacc
    have hc : c.isWhitespace = true := hl c (by simp)
    have hcond : ¬(c = ' ' ∧ termBefore acc = true) := by
      rintro ⟨-, htb⟩
      cases acc with
      | nil => simp [termBefore] at htb
      | cons p acct =>
        have hp := isTerm_eq_false_of_isWhitespace (hacc p (by simp))
        simp [termBefore, hp] at htb
    rw [splitSentencesAux, if_neg hcond]
    rw [ih (c :: acc) (fun d hd => hl d (by simp [hd])) ?_]
    · simp
    · intro d hd
      rcases List.mem_cons.mp hd with h | h
      · exact h ▸ hc
      · exact hacc d h

/-- On all-whitespace input `str.split()` finds no words. -/
theorem wordsAux_nil_of_ws :
    ∀ l : List Char, (∀ c ∈ l, c.isWhitespace = true) → wordsAux [] l = [] := by
  intro l
  induction l with
  | nil => simp [wordsAux]
  | cons c rest ih =>
    intro hl
    rw [wordsAux]
    simp [hl c (by simp), ih (fun d hd => hl d (by simp [hd]))]

/-- The sentence splitter always returns at least one piece. -/
theorem splitSentencesAux_ne_nil :
    ∀ (l : List Char) (mode : Bool) (acc : List Char),
      splitSentencesAux mode acc l ≠ [] := by
  intro l
  induction l with
  | nil => intro mode acc; cases mode <;> simp [splitSentencesAux]
  | cons c rest ih =>
    intro mode acc
    cases mode <;> rw [splitSentencesAux] <;> split <;> simp [ih]

/-- The chunk loop returns a nonempty list whenever its pending state is
nonempty. -/
theorem chunkLoop_ne_nil (m : Nat) :
    ∀ (sents chunks cur : List Str) (n : Nat),
      chunks ≠ [] ∨ cur ≠ [] ∨ sents ≠ [] →
      chunkLoop m sents chunks cur n ≠ [] := by
  intro sents
  induction sents with
  | nil =>
    intro chunks cur n h
    rw [chunkLoop]
    split
    · simp
    · rcases h with h | h | h
      · exact h
      · simp_all
      · simp_all
  | cons s rest ih =>
    intro chunks cur n _
    rw [chunkLoop]
    split
    · exact ih _ _ _ (Or.inr (Or.inl (by simp)))
    · exact ih _ _ _ (Or.inr (Or.inl (by simp)))

/-- The Step 1 loop with the always-succeeding stub model: one invocation
per chunk, in order, each captured as the empty string. -/
theorem leafLoop_constModel :
    ∀ (chunks : List Str) (k : Nat),
      leafLoop constModel chunks k =
        .ok (chunks.map (fun _ => ([] : Str)), k + chunks.length) := by
  intro chunks
  induction chunks with
  | nil => intro k; simp [leafLoop]
  | cons c rest ih =>
    intro k
    rw [leafLoop]
    simp only [constModel, ih (k + 1), capture, trim, trimLeft, List.reverse_nil]
    simp [List.length_cons]
    omega

/-- One merge pass with `batch_size = 1` over a two-element list and the
always-succeeding stub model: two invocations, two results — the pass does
not shrink the list. -/
theorem mergePassGo_constModel_two (a b : Str) (k : Nat) :
    mergePassGo constModel 1 [a, b] k = .ok ([[], []], k + 2) := by
  rw [mergePassGo]
  simp only [constModel, capture, trim, trimLeft, List.reverse_nil, List.take, List.drop]
  rw [mergePassGo]
  simp only [constModel, capture, trim, trimLeft, List.reverse_nil, List.take, List.drop]
  rw [mergePassGo]

/-- With `batch_size = 1`, the `while` loop never leaves a two-element
summary list: every unit of fuel is consumed (two invocations per pass) and
the loop is still running when fuel runs out, whatever the fuel. -/
theorem mergeWhile_one_pair_stuck :
    ∀ (fuel k : Nat), mergeWhile constModel 1 fuel [[], []] k = .fuelOut (k + 2 * fuel) := by
  intro fuel
  induction fuel with
  | zero => intro k; simp [mergeWhile]
  | succ f ih =>
    intro k
    rw [mergeWhile]
    simp only [List.length_cons, List.length_nil, gt_iff_lt, Nat.lt_add_one_iff,
      mergePassGo_constModel_two, if_pos]
    rw [if_pos (by omega)]
    rw [ih (k + 2)]
    congr 1
    omega

/-- With `batch_size = 1` the group partition of a pass puts every summary
in its own singleton group: a pass produces exactly as many merged
summaries as it consumes. -/
theorem passGroups_one (ss : List Str) :
    passGroups 1 ss = ss.map (fun s => [s]) := by
  induction ss with
  | nil => simp [passGroups]
  | cons s rest ih => rw [passGroups]; simp [ih]

/-! ### Claim theorems -/

/-- Claim C1 (code bug).  The claim states that the Reducer always reaches a
single summary in finitely many passes, and in exactly `n - 1` passes when
`batch_size = 1`.  The code hardcodes `batch_size = 1` (line 101), and then
each pass makes one merge call per summary, so a pass never shrinks the
summary list and `while len(summaries) > 1` (line 115) never exits once two
chunks exist.  First conjunct: with `batch_size` (= 1) every pass has
exactly as many groups — hence produces exactly as many merged summaries —
as it has input summaries.  Second conjunct: on the two chunks `"a"`, `"b"`
with an always-succeeding stub model, no amount of fuel completes the run:
the loop is still running (having made `2 + 2·fuel` invocations) when any
given fuel runs out. -/
theorem summarize_using_agent_diverges_on_two_chunks :
    (∀ ss : List Str, (passGroups batch_size ss).length = ss.length) ∧
    (∀ fuel : Nat,
      summarize_using_agent constModel fuel [['a'], ['b']] = .fuelOut (2 + 2 * fuel)) := by
  constructor
  · intro ss
    rw [show batch_size = 1 from rfl, passGroups_one]
    simp
  · intro fuel
    simp [summarize_using_agent, leafLoop_constModel, batch_size, mergeWhile_one_pair_stuck]

/-- Claim C2 (confirmed).  On the empty transcript the orchestration stops
at the `if not transcript` guard (lines 241-243) with the empty-content
error, zero model invocations made and no summary produced, for every model
and every fuel. -/
theorem pipeline_run_empty_transcript (model : Model) (fuel : Nat) :
    pipeline_run model fuel [] = .emptyContent 0 := rfl

/-- Claim C3, counterexample.  The Segmenter applied to the empty string
returns `[""]` — a list of length one — not the empty list the claim
demands: `re.split` on `""` yields `[""]`, the loop accumulates the empty
sentence into `cur`, and the trailing `if cur` check is truthy for the
nonempty list `[""]`. -/
theorem chunk_text_empty_not_nil : ¬ (chunk_text [] 150 = []) := by decide

/-- Claim C3, amended.  On empty or whitespace-only input the Segmenter
returns the one-element chunk list containing the input itself (a chunk of
word count zero), for every `max_words`. -/
theorem chunk_text_whitespace_singleton (text : Str) (m : Nat)
    (h : ∀ c ∈ text, c.isWhitespace = true) :
    chunk_text text m = [text] := by
  unfold chunk_text splitSentences
  rw [splitSentencesAux_ws text [] h (by simp)]
  rw [chunkLoop]
  rw [if_neg (by simp)]
  rw [chunkLoop]
  simp [joinSpace]

/-- Witness for the amended C3 at the whitespace-only input `" "`. -/
theorem chunk_text_whitespace_singleton_witness :
    (∀ c ∈ ([' '] : Str), c.isWhitespace = true) ∧ chunk_text [' '] 150 = [[' ']] :=
  ⟨by decide, chunk_text_whitespace_singleton [' '] 150 (by decide)⟩

/-- Claim C6 (confirmed).  The `while` loop of the Reducer applied to a summary
list of length at most one returns it unchanged — `[s]` stays `[s]` and `[]`
stays `[]` — with the invocation counter unchanged (no model call), for
every model, batch size and fuel. -/
theorem mergeWhile_short_identity (model : Model) (bs fuel k : Nat) (s : Str) :
    mergeWhile model bs fuel [s] k = .ok [s] k ∧
    mergeWhile model bs fuel [] k = .ok [] k := by
  constructor <;> rw [mergeWhile.eq_def] <;> simp

/-- Witness for C6 at a concrete model, batch size, fuel and summary. -/
theorem mergeWhile_short_identity_witness :
    mergeWhile constModel 1 5 [['a']] 3 = .ok [['a']] 3 ∧
    mergeWhile constModel 1 5 [] 3 = .ok [] 3 :=
  mergeWhile_short_identity constModel 1 5 3 ['a']

/-- Claim C8, counterexample.  With `max_words = 0` (≤ 0) nothing fails and
no `ConfigurationError` exists: the Segmenter happily chunks `"Hi. Yo."`
into two chunks and the leaf loop then performs two model invocations —
where the claim demands failure before any model invocation. -/
theorem no_configuration_error_at_zero :
    chunk_text ['H', 'i', '.', ' ', 'Y', 'o', '.'] 0 =
      [['H', 'i', '.'], ['Y', 'o', '.']] ∧
    leafLoop constModel (chunk_text ['H', 'i', '.', ' ', 'Y', 'o', '.'] 0) 0 =
      .ok ([[], []], 2) ∧ (2 : Nat) ≠ 0 := by
  refine ⟨by decide, ?_, by decide⟩
  rw [show chunk_text ['H', 'i', '.', ' ', 'Y', 'o', '.'] 0 =
        [['H', 'i', '.'], ['Y', 'o', '.']] by decide]
  rfl

/-- Claim C8, amended.  The code validates neither parameter and defines no
configuration error: for every text and every `max_words` — including 0 —
the Segmenter returns at least one chunk and the leaf loop then makes one
model invocation per chunk; `batch_size` is hardcoded to 1 (line 101), so a
non-positive batch size cannot even be supplied. -/
theorem no_parameter_validation (text : Str) (m : Nat) :
    chunk_text text m ≠ [] ∧
    leafLoop constModel (chunk_text text m) 0 =
      .ok ((chunk_text text m).map (fun _ => ([] : Str)), (chunk_text text m).length) ∧
    batch_size = 1 := by
  refine ⟨?_, ?_, rfl⟩
  · exact chunkLoop_ne_nil m _ _ _ _ (Or.inr (Or.inr (splitSentencesAux_ne_nil text false [])))
  · simpa using leafLoop_constModel (chunk_text text m) 0

/-- Claim C9, counterexample.  When the model returns a richer result
object, line 111 applies `str(out)` with no `strip()`: a rendering with
surrounding whitespace is captured as is, so the captured result is not
trimmed text. -/
theorem capture_obj_not_trimmed :
    capture (.obj [' ', 'x', ' ']) ≠ trim (capture (.obj [' ', 'x', ' '])) := by
  decide

/-- Claim C9, amended.  At both capture sites (line 111 for leaves, line 125
for merges, both embedded by `capture`) the result is trimmed when the model
returns a plain string, but a richer result object is rendered with `str()`
and kept untrimmed. -/
theorem capture_trims_only_strings :
    (∀ s : Str, capture (.str s) = trim s) ∧ (∀ r : Str, capture (.obj r) = r) :=
  ⟨fun _ => rfl, fun _ => rfl⟩

/-- Claim C10 (confirmed).  With a model that raises on its second
invocation (global index 1), a run over at least two chunks fails during
leaf summarization with the exception from the model after exactly one
successful call: the outcome is `leafFail 1` — raised at invocation
index 1, i.e. one successful call before it — so the Step 2 merge loop was
never entered and no merge call was attempted, no partial summary is
returned, and the failure propagates with no retry (no invocation index is
ever reused), for every fuel and all chunk contents. -/
theorem summarize_fails_second_invocation (fuel : Nat) (c1 c2 : Str) (cs : List Str) :
    summarize_using_agent failsSecond fuel (c1 :: c2 :: cs) = .fail (.leafFail 1) := by
  simp [summarize_using_agent, leafLoop, failsSecond]

/-- Splitting on whitespace distributes over appending a space: the words of
`a ++ " " ++ b` are the words of `a` followed by the words of `b`. -/
theorem wordsAux_append_space (b : List Char) :
    ∀ (a acc : List Char), wordsAux acc (a ++ ' ' :: b) = wordsAux acc a ++ wordsAux [] b := by
  intro a
  induction a with
  | nil =>
    intro acc
    simp only [List.nil_append]
    rw [wordsAux, wordsAux]
    have hw : (' ' : Char).isWhitespace = true := by decide
    rw [hw]
    by_cases ha : acc.isEmpty <;> simp [ha]
  | cons c a2 ih =>
    intro acc
    simp only [List.cons_append]
    simp only [wordsAux]
    by_cases hw : c.isWhitespace <;> simp only [hw, if_true, if_false]
    · by_cases ha : acc.isEmpty <;> simp [ha, ih]
    · simp [ih]

/-- The words of a space-join of strings are the concatenation of the words
of the strings: `" ".join` introduces exactly one separator between
consecutive pieces. -/
theorem pyWords_joinSpace : ∀ (g : List Str), g ≠ [] →
    pyWords (joinSpace g) = (g.map pyWords).flatten := by
  intro g
  induction g with
  | nil => intro h; simp at h
  | cons s rest ih =>
    intro _
    cases rest with
    | nil => simp [joinSpace]
    | cons t rs =>
      show wordsAux [] (s ++ ' ' :: joinSpace (t :: rs)) = _
      rw [wordsAux_append_space]
      rw [show wordsAux [] (joinSpace (t :: rs)) = pyWords (joinSpace (t :: rs)) from rfl]
      rw [ih (by simp)]
      simp [pyWords]

/-- The word count (line 74 applied to a chunk string) of a space-joined
chunk is the sum of the word counts of its sentences. -/
theorem wordCount_joinSpace (g : List Str) (hg : g ≠ []) :
    wordCount (joinSpace g) = (g.map wordCount).sum := by
  rw [wordCount, pyWords_joinSpace g hg, List.length_flatten]
  rw [List.map_map]
  rfl

/-- `chunkLoop` and its sentence-group variant track each other exactly:
the string chunks are the space-joins of the sentence groups. -/
theorem chunkLoop_eq_map_chunkLoopG (m : Nat) :
    ∀ (sents : List Str) (chunks : List (List Str)) (cur : List Str) (n : Nat),
      chunkLoop m sents (chunks.map joinSpace) cur n =
        (chunkLoopG m sents chunks cur n).map joinSpace := by
  intro sents
  induction sents with
  | nil =>
    intro chunks cur n
    rw [chunkLoop, chunkLoopG]
    by_cases h : cur ≠ []
    · rw [if_pos h, if_pos h, List.map_append]
      rfl
    · rw [if_neg h, if_neg h]
  | cons s rest ih =>
    intro chunks cur n
    rw [chunkLoop, chunkLoopG]
    by_cases h : n + wordCount s > m ∧ cur ≠ []
    · rw [if_pos h, if_pos h, ← ih (chunks ++ [cur]) [s] (wordCount s)]
      rw [List.map_append]
      rfl
    · rw [if_neg h, if_neg h]
      exact ih chunks (cur ++ [s]) (n + wordCount s)

/-- Every sentence entering the chunk loop ends up in the output groups,
exactly once, in order: the groups flatten to the pending chunks, the
current chunk and the remaining sentences. -/
theorem chunkLoopG_flatten (m : Nat) :
    ∀ (sents : List Str) (chunks : List (List Str)) (cur : List Str) (n : Nat),
      (chunkLoopG m sents chunks cur n).flatten = chunks.flatten ++ cur ++ sents := by
  intro sents
  induction sents with
  | nil =>
    intro chunks cur n
    rw [chunkLoopG]
    by_cases h : cur ≠ []
    · rw [if_pos h]
      simp [List.flatten_append]
    · rw [if_neg h]
      simp only [ne_eq, not_not] at h
      simp [h]
  | cons s rest ih =>
    intro chunks cur n
    rw [chunkLoopG]
    by_cases h : n + wordCount s > m ∧ cur ≠ []
    · rw [if_pos h, ih]
      simp [List.flatten_append]
    · rw [if_neg h, ih]
      simp

/-- Loop invariant for the word bound: provided `cur_len` is the word sum of
the current chunk, every emitted group is nonempty, and its word sum is at
most `m` unless it is a single sentence whose own word count exceeds `m`. -/
theorem chunkLoopG_bounded (m : Nat) :
    ∀ (sents : List Str) (chunks : List (List Str)) (cur : List Str) (n : Nat),
      n = (cur.map wordCount).sum →
      (∀ g ∈ chunks, g ≠ [] ∧ ((g.map wordCount).sum ≤ m ∨ ∃ s, g = [s] ∧ m < wordCount s)) →
      (cur = [] ∨ (cur.map wordCount).sum ≤ m ∨ ∃ s, cur = [s] ∧ m < wordCount s) →
      ∀ g ∈ chunkLoopG m sents chunks cur n,
        g ≠ [] ∧ ((g.map wordCount).sum ≤ m ∨ ∃ s, g = [s] ∧ m < wordCount s) := by
  intro sents
  induction sents with
  | nil =>
    intro chunks cur n hn hchunks hcur g hg
    rw [chunkLoopG] at hg
    by_cases h : cur ≠ []
    · rw [if_pos h] at hg
      rcases List.mem_append.mp hg with hmem | hmem
      · exact hchunks g hmem
      · have : g = cur := by simpa using hmem
        subst this
        rcases hcur with hc | hc
        · exact absurd hc h
        · exact ⟨h, hc⟩
    · rw [if_neg h] at hg
      exact hchunks g hg
  | cons s rest ih =>
    intro chunks cur n hn hchunks hcur g hg
    rw [chunkLoopG] at hg
    by_cases h : n + wordCount s > m ∧ cur ≠ []
    · rw [if_pos h] at hg
      refine ih (chunks ++ [cur]) [s] (wordCount s) (by simp) ?_ ?_ g hg
      · intro g2 hg2
        rcases List.mem_append.mp hg2 with hmem | hmem
        · exact hchunks g2 hmem
        · have : g2 = cur := by simpa using hmem
          subst this
          rcases hcur with hc | hc
          · exact absurd hc h.2
          · exact ⟨h.2, hc⟩
      · rcases le_or_lt (wordCount s) m with hle | hlt
        · exact Or.inr (Or.inl (by simpa using hle))
        · exact Or.inr (Or.inr ⟨s, rfl, hlt⟩)
    · rw [if_neg h] at hg
      refine ih chunks (cur ++ [s]) (n + wordCount s) (by simp [hn]) hchunks ?_ g hg
      by_cases hcnil : cur = []
      · subst hcnil
        rcases le_or_lt (wordCount s) m with hle | hlt
        · exact Or.inr (Or.inl (by simpa using hle))
        · exact Or.inr (Or.inr ⟨s, rfl, hlt⟩)
      · have hle : n + wordCount s ≤ m := by
          rcases le_or_lt (n + wordCount s) m with hle | hlt
          · exact hle
          · exact absurd ⟨hlt, hcnil⟩ h
        refine Or.inr (Or.inl ?_)
        rw [List.map_append, List.sum_append]
        simpa [← hn] using hle

/-- Claim C4 (confirmed).  For every transcript and every `max_words > 0`
the chunks of the Segmenter, in output order, carry exactly the sentence
sequence of the transcript: the sentence groups of the chunks flatten to
the `re.split` sentence list — no sentence lost, duplicated or reordered —
and each output chunk is precisely the space-join of its group of
sentences. -/
theorem chunk_text_preserves_sentences (text : Str) (m : Nat) (hm : 0 < m) :
    (chunk_textG text m).flatten = splitSentences text ∧
    chunk_text text m = (chunk_textG text m).map joinSpace := by
  constructor
  · rw [chunk_textG, chunkLoopG_flatten]
    simp
  · rw [chunk_text, chunk_textG]
    simpa using chunkLoop_eq_map_chunkLoopG m (splitSentences text) [] [] 0

/-- Witness for C4 at the transcript `"Hi. Yo."` with `max_words = 2`. -/
theorem chunk_text_preserves_sentences_witness :
    0 < 2 ∧
    ((chunk_textG ['H', 'i', '.', ' ', 'Y', 'o', '.'] 2).flatten =
        splitSentences ['H', 'i', '.', ' ', 'Y', 'o', '.'] ∧
      chunk_text ['H', 'i', '.', ' ', 'Y', 'o', '.'] 2 =
        (chunk_textG ['H', 'i', '.', ' ', 'Y', 'o', '.'] 2).map joinSpace) :=
  ⟨by decide, chunk_text_preserves_sentences ['H', 'i', '.', ' ', 'Y', 'o', '.'] 2 (by decide)⟩

/-- Claim C5 (confirmed).  For every transcript and every `max_words > 0`,
each chunk is the space-join of a nonempty group of whole sentences (so no
sentence is ever split across chunks), and the word count of each chunk is at
most `m` unless the chunk consists of a single sentence whose own word
count already exceeds `m`. -/
theorem chunk_text_word_bound (text : Str) (m : Nat) (hm : 0 < m) :
    chunk_text text m = (chunk_textG text m).map joinSpace ∧
    ∀ g ∈ chunk_textG text m,
      g ≠ [] ∧ (wordCount (joinSpace g) ≤ m ∨ ∃ s, g = [s] ∧ m < wordCount s) := by
  constructor
  · rw [chunk_text, chunk_textG]
    simpa using chunkLoop_eq_map_chunkLoopG m (splitSentences text) [] [] 0
  · intro g hg
    have hmain :=
      chunkLoopG_bounded m (splitSentences text) [] [] 0 (by simp) (by simp) (Or.inl rfl) g hg
    refine ⟨hmain.1, ?_⟩
    rcases hmain.2 with hs | hs
    · exact Or.inl (by rw [wordCount_joinSpace g hmain.1]; exact hs)
    · exact Or.inr hs

/-- Witness for C5 at the transcript `"Hi. Yo."` with `max_words = 2`. -/
theorem chunk_text_word_bound_witness :
    0 < 2 ∧
    (chunk_text ['H', 'i', '.', ' ', 'Y', 'o', '.'] 2 =
        (chunk_textG ['H', 'i', '.', ' ', 'Y', 'o', '.'] 2).map joinSpace ∧
      ∀ g ∈ chunk_textG ['H', 'i', '.', ' ', 'Y', 'o', '.'] 2,
        g ≠ [] ∧ (wordCount (joinSpace g) ≤ 2 ∨ ∃ s, g = [s] ∧ 2 < wordCount s)) :=
  ⟨by decide, chunk_text_word_bound ['H', 'i', '.', ' ', 'Y', 'o', '.'] 2 (by decide)⟩

/-- A merge pass has no groups exactly on an empty summary list. -/
theorem passGroups_eq_nil_iff (bs : Nat) (ss : List Str) :
    passGroups bs ss = [] ↔ ss = [] := by
  cases ss <;> simp [passGroups]

/-- The groups of a merge pass flatten back to the summary list: grouping is
contiguous, non-overlapping, exhaustive and order-preserving. -/
theorem passGroups_flatten (bs : Nat) :
    ∀ ss : List Str, (passGroups bs ss).flatten = ss := by
  intro ss
  induction ss using passGroups.induct bs with
  | case1 => simp [passGroups]
  | case2 s rest ih =>
    rw [passGroups]
    simp only [List.flatten_cons, ih]
    simp [List.take_append_drop]

/-- Every group of a merge pass is nonempty and has at most `batch_size`
elements. -/
theorem passGroups_group_size (bs : Nat) (hbs : 1 ≤ bs) :
    ∀ ss : List Str, ∀ g ∈ passGroups bs ss, g ≠ [] ∧ g.length ≤ bs := by
  intro ss
  induction ss using passGroups.induct bs with
  | case1 => simp [passGroups]
  | case2 s rest ih =>
    intro g hg
    rw [passGroups] at hg
    rcases List.mem_cons.mp hg with h | h
    · subst h
      refine ⟨by simp, ?_⟩
      simp only [List.length_cons, List.length_take]
      omega
    · exact ih g h

/-- Every group of a merge pass except possibly the final one has exactly
`batch_size` elements. -/
theorem passGroups_dropLast_size (bs : Nat) (hbs : 1 ≤ bs) :
    ∀ ss : List Str, ∀ g ∈ (passGroups bs ss).dropLast, g.length = bs := by
  intro ss
  induction ss using passGroups.induct bs with
  | case1 => simp [passGroups]
  | case2 s rest ih =>
    intro g hg
    rw [passGroups] at hg
    by_cases hnil : passGroups bs (rest.drop (bs - 1)) = []
    · rw [hnil] at hg
      simp at hg
    · rw [List.dropLast_cons_of_ne_nil hnil] at hg
      rcases List.mem_cons.mp hg with h | h
      · subst h
        have hrest : rest.drop (bs - 1) ≠ [] :=
          fun hc => hnil (by rw [hc]; simp [passGroups])
        have hlen : bs - 1 ≤ rest.length := by
          by_contra hlt
          push_neg at hlt
          exact hrest (List.drop_eq_nil_of_le (le_of_lt hlt))
        simp only [List.length_cons, List.length_take]
        omega
      · exact ih g h

/-- A merge pass with the always-succeeding stub model produces exactly one
merged summary per group, in group order, advancing the invocation counter
by the number of groups. -/
theorem mergePassGo_constModel_groups (bs : Nat) :
    ∀ (ss : List Str) (k : Nat),
      mergePassGo constModel bs ss k =
        .ok ((passGroups bs ss).map (fun _ => ([] : Str)), k + (passGroups bs ss).length) := by
  intro ss
  induction ss using passGroups.induct bs with
  | case1 => intro k; rw [mergePassGo, passGroups]; simp
  | case2 s rest ih =>
    intro k
    rw [mergePassGo, passGroups]
    simp only [constModel, capture, trim, trimLeft, List.reverse_nil]
    rw [ih (k + 1)]
    simp only [List.map_cons, List.length_cons]
    rw [Except.ok.injEq, Prod.mk.injEq]
    exact ⟨rfl, by omega⟩

/-- Claim C7 (confirmed).  In every merge pass the summaries of the previous pass
are partitioned into contiguous, non-overlapping, exhaustive groups in
original order (the groups flatten back to the list), each group nonempty
with at most `batch_size` elements, every non-final group exactly
`batch_size`; one merged summary is produced per group, in order.
Consequently, from 10 summaries with batch size 3 the successive pass sizes
are exactly 10, 4, 2, 1, and the loop finishes after 4 + 2 + 1 = 7 merge
invocations. -/
theorem mergePass_partitions (bs : Nat) (hbs : 1 ≤ bs) :
    (∀ ss : List Str, (passGroups bs ss).flatten = ss) ∧
    (∀ ss : List Str, ∀ g ∈ passGroups bs ss, g ≠ [] ∧ g.length ≤ bs) ∧
    (∀ ss : List Str, ∀ g ∈ (passGroups bs ss).dropLast, g.length = bs) ∧
    (∀ (ss : List Str) (k : Nat),
      mergePassGo constModel bs ss k =
        .ok ((passGroups bs ss).map (fun _ => ([] : Str)),
          k + (passGroups bs ss).length)) ∧
    (([[], [], [], [], [], [], [], [], [], []] : List Str).length = 10 ∧
      (passGroups 3 [[], [], [], [], [], [], [], [], [], []]).length = 4 ∧
      (passGroups 3 [[], [], [], []]).length = 2 ∧
      (passGroups 3 [[], []]).length = 1 ∧
      mergeWhile constModel 3 3 [[], [], [], [], [], [], [], [], [], []] 0 =
        .ok [[]] 7) := by
  refine ⟨passGroups_flatten bs, passGroups_group_size bs hbs,
    passGroups_dropLast_size bs hbs, mergePassGo_constModel_groups bs, ?_, ?_, ?_, ?_, ?_⟩
  · simp
  · simp [passGroups]
  · simp [passGroups]
  · simp [passGroups]
  · simp [mergeWhile, mergePassGo_constModel_groups, passGroups]

/-- Witness for C7 at batch size 3. -/
theorem mergePass_partitions_witness :
    1 ≤ 3 ∧
    ((∀ ss : List Str, (passGroups 3 ss).flatten = ss) ∧
      (∀ ss : List Str, ∀ g ∈ passGroups 3 ss, g ≠ [] ∧ g.length ≤ 3) ∧
      (∀ ss : List Str, ∀ g ∈ (passGroups 3 ss).dropLast, g.length = 3) ∧
      (∀ (ss : List Str) (k : Nat),
        mergePassGo constModel 3 ss k =
          .ok ((passGroups 3 ss).map (fun _ => ([] : Str)),
            k + (passGroups 3 ss).length)) ∧
      (([[], [], [], [], [], [], [], [], [], []] : List Str).length = 10 ∧
        (passGroups 3 [[], [], [], [], [], [], [], [], [], []]).length = 4 ∧
        (passGroups 3 [[], [], [], []]).length = 2 ∧
        (passGroups 3 [[], []]).length = 1 ∧
        mergeWhile constModel 3 3 [[], [], [], [], [], [], [], [], [], []] 0 =
          .ok [[]] 7)) :=
  ⟨by decide, mergePass_partitions 3 (by decide)⟩
